import Mathlib

/-!
Shallow embedding of the numerical kernels of `src/pgm_common.h` (the
`polyagamma` C library): the complementary error function `pgm_erfc`, the
log-gamma kernel `pgm_lgamma`, the two Lentz continued-fraction evaluators
`confluent_x_smaller` / `confluent_p_smaller`, the (optionally normalized)
upper incomplete gamma `pgm_gammaq`, and the truncated-gamma rejection
sampler `random_left_bounded_gamma`.

Modelling conventions:
* IEEE doubles are modelled as real numbers (`ℝ`); the constants
  `DBL_MIN = 2⁻¹⁰²²` and `DBL_EPSILON = 2⁻⁵²` are exact.
* The C expression `(size_t)z` (truncation of a non-negative double) is
  `⌊z⌋₊`; `size_t` subtraction wraps modulo `2⁶⁴` (see `lgammaIdx`).
* `log` applied to `0` yields `-∞` in C and `exp(-∞) = 0`; where the source
  composes them we use `EReal`-valued `clog` and `cexp` so that those
  special values are preserved (`clog` is the C `log` on `[0, ∞)`).
* The one place where the source can produce a NaN under its documented
  preconditions (`p > 0`, `x ≥ 0`) is the division by `sqrt(x)` in the
  half-integer fast path of `pgm_gammaq` when `x = 0`; `pgm_gammaq`
  therefore returns `Option ℝ`, `none` standing for that NaN.
* The rejection sampler's unbounded `do/while` loops are given explicit
  fuel and return `Option`; `none` means the fuel ran out, `some` means the
  loop accepted, so every property of accepted samples is stated on `some`.
-/

open Classical

noncomputable section

namespace PGM

/-- Constant `PGM_MAX_EXP = 708.3964202663686`, the largest allowed `exp`
argument (from the header of `pgm_common.h`). -/
def PGM_MAX_EXP : ℝ := 708.3964202663686

/-- Constant `PGM_LS2PI = log(sqrt(2*pi))` as the source's literal. -/
def PGM_LS2PI : ℝ := 0.9189385332046727

/-- Constant `PGM_CONFLUENT_EPSILON = 1e-07`, the continued-fraction
convergence tolerance. -/
def PGM_CONFLUENT_EPSILON : ℝ := 1e-7

/-- `DBL_MIN = 2⁻¹⁰²²`, the smallest positive normal double. -/
def DBL_MIN : ℝ := 1 / 2 ^ 1022

/-- `DBL_EPSILON = 2⁻⁵²`, the double-precision machine epsilon. -/
def DBL_EPSILON : ℝ := 1 / 2 ^ 52

/-- Constant `PGM_1_SQRTPI = 1/sqrt(pi)` as the source's literal (used by
`pgm_erfc` and by the half-integer path of `pgm_gammaq`). -/
def PGM_1_SQRTPI : ℝ := 0.5641895835477563

/-- Constant `PGM_BIG_VAL = 26.615717509251258` of `pgm_erfc`. -/
def PGM_BIG_VAL : ℝ := 26.615717509251258

/-- Constant `PGM_SMALL_VAL = -6.003636680306125` of `pgm_erfc`. -/
def PGM_SMALL_VAL : ℝ := -6.003636680306125

/-- The branches of `pgm_erfc` for arguments `x ≥ -DBL_EPSILON` (the third
through last branch of the C function, in source order).  The C recursion
`2 - pgm_erfc(-x)` only ever calls `pgm_erfc` at an argument `> DBL_EPSILON`,
which lands in these branches, so `pgm_erfc` below is its faithful
non-recursive unrolling. -/
def erfcPos (x : ℝ) : ℝ :=
  if x < DBL_EPSILON then 1
  else if x < 0.5 then
    let z := x * x
    1 - x * ((((1.85777706184603153e-01 * z + 3.16112374387056560e+00) * z +
        1.13864154151050156e+02) * z + 3.77485237685302021e+02) * z +
        3.20937758913846947e+03) /
      ((((z + 2.36012909523441209e+01) * z + 2.44024637934444173e+02) * z +
        1.28261652607737228e+03) * z + 2.84423683343917062e+03)
  else if x < 4 then
    Real.exp (-x * x) *
      ((((4.3187787405e-05 * x + 5.6316961891e-01) * x + 3.0317993362) * x +
        6.8650184849) * x + 7.3738883116) /
      ((((x + 5.3542167949) * x + 1.2795529509e+01) * x + 1.5184908190e+01) * x +
        7.3739608908)
  else if x < PGM_BIG_VAL then
    let z := x * x
    let y := Real.exp (-z)
    if x * DBL_MIN > y * PGM_1_SQRTPI then 0
    else
      let z1 := 1 / z
      let z2 := z1 * (((-5.16882262185e-02) * z1 + (-1.96068973726e-01)) * z1 +
          (-4.25799643553e-02)) /
        ((z1 + 9.21452411694e-01) * z1 + 1.50942070545e-01)
      y * (PGM_1_SQRTPI + z2) / x
  else 0

/-- `pgm_erfc` (src/pgm_common.h, lines 34-99): complementary error function
by rational Chebyshev approximation; the reflection branch
`2 - pgm_erfc(-x)` is unrolled through `erfcPos` (see its doc comment). -/
def pgm_erfc (x : ℝ) : ℝ :=
  if x < PGM_SMALL_VAL then 2
  else if x < -DBL_EPSILON then 2 - erfcPos (-x)
  else erfcPos x

/-- The 200-entry constant table `logfactorial` of `pgm_lgamma`:
`logfactorial[n-1] = log((n-1)!)` for `n = 1..200`, transcribed literally. -/
def logfactorial : List ℝ := [
    0.000000000000000, 0.0000000000000000, 0.69314718055994529, 1.791759469228055,
    3.1780538303479458, 4.7874917427820458, 6.5792512120101012, 8.5251613610654147,
    10.604602902745251, 12.801827480081469, 15.104412573075516, 17.502307845873887,
    19.987214495661885, 22.552163853123425, 25.19122118273868, 27.89927138384089,
    30.671860106080672, 33.505073450136891, 36.395445208033053, 39.339884187199495,
    42.335616460753485, 45.380138898476908, 48.471181351835227, 51.606675567764377,
    54.784729398112319, 58.003605222980518, 61.261701761002001, 64.557538627006338,
    67.88974313718154, 71.257038967168015, 74.658236348830158, 78.092223553315307,
    81.557959456115043, 85.054467017581516, 88.580827542197682, 92.136175603687093,
    95.719694542143202, 99.330612454787428, 102.96819861451381, 106.63176026064346,
    110.32063971475739, 114.03421178146171, 117.77188139974507, 121.53308151543864,
    125.3172711493569, 129.12393363912722, 132.95257503561632, 136.80272263732635,
    140.67392364823425, 144.5657439463449, 148.47776695177302, 152.40959258449735,
    156.3608363030788, 160.3311282166309, 164.32011226319517, 168.32744544842765,
    172.35279713916279, 176.39584840699735, 180.45629141754378, 184.53382886144948,
    188.6281734236716, 192.7390472878449, 196.86618167289001, 201.00931639928152,
    205.1681994826412, 209.34258675253685, 213.53224149456327, 217.73693411395422,
    221.95644181913033, 226.1905483237276, 230.43904356577696, 234.70172344281826,
    238.97838956183432, 243.26884900298271, 247.57291409618688, 251.89040220972319,
    256.22113555000954, 260.56494097186322, 264.92164979855278, 269.29109765101981,
    273.67312428569369, 278.06757344036612, 282.4742926876304, 286.89313329542699,
    291.32395009427029, 295.76660135076065, 300.22094864701415, 304.68685676566872,
    309.1641935801469, 313.65282994987905, 318.1526396202093, 322.66349912672615,
    327.1852877037752, 331.71788719692847, 336.26118197919845, 340.81505887079902,
    345.37940706226686, 349.95411804077025, 354.53908551944079, 359.1342053695754,
    363.73937555556347, 368.35449607240474, 372.97946888568902, 377.61419787391867,
    382.25858877306001, 386.91254912321756, 391.57598821732961, 396.24881705179155,
    400.93094827891576, 405.6222961611449, 410.32277652693733, 415.03230672824964,
    419.75080559954472, 424.47819341825709, 429.21439186665157, 433.95932399501481,
    438.71291418612117, 443.47508812091894, 448.24577274538461, 453.02489623849613,
    457.81238798127816, 462.60817852687489, 467.4121995716082, 472.22438392698058,
    477.04466549258564, 481.87297922988796, 486.70926113683936, 491.55344822329801,
    496.40547848721764, 501.26529089157924, 506.13282534203483, 511.00802266523596,
    515.89082458782241, 520.78117371604412, 525.67901351599517, 530.58428829443358,
    535.49694318016952, 540.41692410599762, 545.34417779115483, 550.27865172428551,
    555.22029414689484, 560.16905403727310, 565.12488109487424, 570.08772572513419,
    575.05753902471020, 580.03427276713080, 585.01787938883899, 590.00831197561786,
    595.00552424938201, 600.00947055532743, 605.02010584942377, 610.03738568623862,
    615.06126620708494, 620.09170412847732, 625.12865673089095, 630.17208184781020,
    635.22193785505965, 640.27818366040810, 645.34077869343503, 650.40968289565524,
    655.48485671088906, 660.56626107587351, 665.65385741110595, 670.74760761191271,
    675.84747403973688, 680.95341951363753, 686.06540730199413, 691.18340111441080,
    696.30736509381404, 701.43726380873704, 706.57306224578736, 711.71472580228999,
    716.86222027910355, 722.01551187360133, 727.17456717281584, 732.33935314673920,
    737.50983714177733, 742.68598687435122, 747.86777042464337, 753.05515623048404,
    758.24811308137441, 763.44661011264009, 768.65061679971711, 773.86010295255835,
    779.07503871016729, 784.29539453524569, 789.52114120895885, 794.75224982581346,
    799.98869178864345, 805.23043880370301, 810.47746287586358, 815.72973630391016,
    820.98723167593789, 826.24992186484292, 831.51778002390620, 836.79077958246978,
    842.06889424170038, 847.35209797043842, 852.64036500113298, 857.93366982585735]

/-- The guard of `pgm_lgamma`'s integer-lookup branch,
`z < 201 && z == (size_t)z` (line 199 of the source);
`(size_t)z = ⌊z⌋₊` for the non-negative doubles the cast is defined on. -/
def lgammaGuard (z : ℝ) : Prop := z < 201 ∧ z = (⌊z⌋₊ : ℝ)

/-- The table index `(size_t)z - 1` of the lookup branch, with the `size_t`
subtraction carried out modulo `2⁶⁴` (so `z = 0` wraps to `2⁶⁴ - 1`). -/
def lgammaIdx (z : ℝ) : ℕ := (⌊z⌋₊ + (2 ^ 64 - 1)) % 2 ^ 64

/-- `pgm_lgamma` (src/pgm_common.h, lines 125-267): log-gamma by table
lookup, Stirling expansion, and rational approximations. The table access
`logfactorial[(size_t)z - 1]` is modelled by `List.getD` at `lgammaIdx z`
(out-of-bounds access, which in C is undefined, reads the default `0`). -/
def pgm_lgamma (z : ℝ) : ℝ :=
  if lgammaGuard z then logfactorial.getD (lgammaIdx z) 0
  else if z > 12 then
    (z - 0.5) * Real.log z - z + PGM_LS2PI
      + 0.08333333333333333 / z
      - 0.002777777777777778 / ((z * z) * z)
      + 0.0007936507936507937 / ((z * z) * (z * z) * z)
  else if z ≥ 4 then
    (((((-2.29660729780e+03) * z + (-4.02621119975e+04)) * z +
        2.74647644705e+04) * z + 2.30661510616e+05) * z + (-2.12159572323e+05)) /
      ((((z + (-5.70691009324e+02)) * z + (-2.42357409629e+04)) * z +
        (-1.46025937511e+05)) * z + (-1.16328495004e+05))
  else if z > 1.5 then
    (z - 2) *
      ((((4.16438922228 * z + 7.86994924154e+01) * z + 1.37519416416e+02) * z +
        (-1.42046296688e+02)) * z + (-7.83359299449e+01)) /
      ((((z + 4.33400022514e+01) * z + 2.63505074721e+02) * z +
        3.13399215894e+02) * z + 4.70668766060e+01)
  else if z ≥ 0.5 then
    (z - 1) *
      ((((3.13060547623 * z + 1.11667541262e+01) * z + (-2.19698958928e+01)) * z +
        (-2.44387534237e+01)) * z + (-2.66685511495)) /
      ((((z + 1.52346874070e+01) * z + 3.14690115749e+01) * z +
        1.19400905721e+01) * z + 6.07771387771e-01)
  else if z > DBL_EPSILON then
    let x := z + 1
    z * ((((3.13060547623 * x + 1.11667541262e+01) * x + (-2.19698958928e+01)) * x +
        (-2.44387534237e+01)) * x + (-2.66685511495)) /
      ((((x + 1.52346874070e+01) * x + 3.14690115749e+01) * x +
        1.19400905721e+01) * x + 6.07771387771e-01) - Real.log z
  else if z > DBL_MIN then -Real.log z
  else PGM_MAX_EXP

/-! ### The two Lentz continued-fraction evaluators

Both C loops (`confluent_x_smaller`, lines 336-366, and
`confluent_p_smaller`, lines 392-420) run a counter `n` up to the hard cap
`n < 100` and break as soon as `|delta - 1| < PGM_CONFLUENT_EPSILON`.  They
are modelled by structural recursion on the number of iterations still
allowed (`fuel = 100 - n`); each evaluator also reports how many loop
iterations it executed. -/

/-- One Lentz update of the continuant `c`: `c = b + a/c`, floored at
`DBL_MIN`. -/
def lentzC (a b c : ℝ) : ℝ :=
  if b + a / c < DBL_MIN then DBL_MIN else b + a / c

/-- One Lentz update of the continuant `d` before taking its reciprocal:
`d = a*d + b`, floored at `DBL_MIN`. -/
def lentzD (a b d : ℝ) : ℝ :=
  if a * d + b < DBL_MIN then DBL_MIN else a * d + b

/-- The `a`-term of iteration `n` in `confluent_x_smaller`:
`n & 1 ? s * (n - 1) : r - s * n`. -/
def xsA (r s : ℝ) (n : ℕ) : ℝ :=
  if n % 2 = 1 then s * ((n : ℝ) - 1) else r - s * (n : ℝ)

/-- The multiplicative update `delta = c * (1/d)` of iteration `n` of the
`x_smaller` loop, as a function of the state `(b, c, d)` before the
iteration. -/
def xsDelta (r s : ℝ) (n : ℕ) (b c d : ℝ) : ℝ :=
  lentzC (xsA r s n) (b + 1) c * (1 / lentzD (xsA r s n) (b + 1) d)

/-- The `x_smaller` loop: iteration counter `n`, remaining iterations
`fuel` (the C loop runs while `n < 100`); returns the final `f` together
with the number of iterations executed. -/
def xsGo (r s : ℝ) : ℕ → ℕ → ℝ → ℝ → ℝ → ℝ → ℝ × ℕ
  | 0, _, _, _, _, f => (f, 0)
  | fuel + 1, n, b, c, d, f =>
    if |xsDelta r s n b c d - 1| < PGM_CONFLUENT_EPSILON then
      (f * xsDelta r s n b c d, 1)
    else
      ((xsGo r s fuel (n + 1) (b + 1) (lentzC (xsA r s n) (b + 1) c)
          (1 / lentzD (xsA r s n) (b + 1) d) (f * xsDelta r s n b c d)).1,
       (xsGo r s fuel (n + 1) (b + 1) (lentzC (xsA r s n) (b + 1) c)
          (1 / lentzD (xsA r s n) (b + 1) d) (f * xsDelta r s n b c d)).2 + 1)

/-- `confluent_x_smaller` (src/pgm_common.h, lines 336-366): the continued
fraction for `G(p,x)` on `x ≤ p`, by the modified Lentz method.  Initial
state: `n = 2`, `f = 1/p`, `c = 1/DBL_MIN`, `d = 1/p`,
`r = -(p-1)*x`, `s = 0.5*x`; at most `98` iterations (`n = 2..99`). -/
def confluent_x_smaller (p x : ℝ) : ℝ :=
  (xsGo (-(p - 1) * x) (0.5 * x) 98 2 p (1 / DBL_MIN) (1 / p) (1 / p)).1

/-- Number of loop iterations `confluent_x_smaller` executes. -/
def xsIters (p x : ℝ) : ℕ :=
  (xsGo (-(p - 1) * x) (0.5 * x) 98 2 p (1 / DBL_MIN) (1 / p) (1 / p)).2

/-- The `a`-term of iteration `n` in `confluent_p_smaller`: `a = n*(p - n)`. -/
def psA (p : ℝ) (n : ℕ) : ℝ := (n : ℝ) * (p - (n : ℝ))

/-- The multiplicative update `delta` of iteration `n` of the `p_smaller`
loop (`b` is incremented by `2` each iteration). -/
def psDelta (p : ℝ) (n : ℕ) (b c d : ℝ) : ℝ :=
  lentzC (psA p n) (b + 2) c * (1 / lentzD (psA p n) (b + 2) d)

/-- The `p_smaller` loop, analogous to `xsGo` with `b += 2` and the
`a`-term `n*(p-n)`. -/
def psGo (p : ℝ) : ℕ → ℕ → ℝ → ℝ → ℝ → ℝ → ℝ × ℕ
  | 0, _, _, _, _, f => (f, 0)
  | fuel + 1, n, b, c, d, f =>
    if |psDelta p n b c d - 1| < PGM_CONFLUENT_EPSILON then
      (f * psDelta p n b c d, 1)
    else
      ((psGo p fuel (n + 1) (b + 2) (lentzC (psA p n) (b + 2) c)
          (1 / lentzD (psA p n) (b + 2) d) (f * psDelta p n b c d)).1,
       (psGo p fuel (n + 1) (b + 2) (lentzC (psA p n) (b + 2) c)
          (1 / lentzD (psA p n) (b + 2) d) (f * psDelta p n b c d)).2 + 1)

/-- `confluent_p_smaller` (src/pgm_common.h, lines 392-420): the continued
fraction for `G(p,x)` on `x > p`.  Initial state: `n = 1`,
`b = x - p + 1`, `f = 1/b`, `c = 1/DBL_MIN`, `d = 1/b`; at most `99`
iterations (`n = 1..99`). -/
def confluent_p_smaller (p x : ℝ) : ℝ :=
  (psGo p 99 1 (x - p + 1) (1 / DBL_MIN) (1 / (x - p + 1)) (1 / (x - p + 1))).1

/-- Number of loop iterations `confluent_p_smaller` executes. -/
def psIters (p x : ℝ) : ℕ :=
  (psGo p 99 1 (x - p + 1) (1 / DBL_MIN) (1 / (x - p + 1)) (1 / (x - p + 1))).2

/-! ### `pgm_gammaq` -/

/-- The C `log` on non-negative doubles: `log 0 = -∞` (an `EReal`), finite
elsewhere.  (`log` of a negative double is a NaN in C; the source only
applies `log` to non-negative values.) -/
def clog (x : ℝ) : EReal := if x = 0 then ⊥ else ((Real.log x : ℝ) : EReal)

/-- The C `exp` on extended reals: `exp(-∞) = 0`.  The `⊤` case never
arises from the finite inputs of this file (`clog` never returns `⊤`); its
value is irrelevant junk. -/
def cexp (y : EReal) : ℝ :=
  if y = ⊥ then 0 else if y = ⊤ then 0 else Real.exp y.toReal

/-- The clamping of the exponent argument in the unnormalized `x ≤ p`
branch of `pgm_gammaq` (lines 481-488): `arg` is forced into
`[-PGM_MAX_EXP, PGM_MAX_EXP]`, testing the upper bound first, exactly as
the source's pair of `if` statements. -/
def clampArg (y : EReal) : ℝ :=
  if (PGM_MAX_EXP : EReal) ≤ y then PGM_MAX_EXP
  else if y ≤ ((-PGM_MAX_EXP : ℝ) : EReal) then -PGM_MAX_EXP
  else y.toReal

/-- `exp_lgam` of the unnormalized `x ≤ p` branch (line 480):
`lgam >= PGM_MAX_EXP ? exp(PGM_MAX_EXP) : exp(lgam)`. -/
def expLgam (p : ℝ) : ℝ :=
  if PGM_MAX_EXP ≤ pgm_lgamma p then Real.exp PGM_MAX_EXP
  else Real.exp (pgm_lgamma p)

/-- The state `(sum, r)` of the terminating-series loop of the integer
fast path after the steps `k = 1..m` (`sum += (r *= x/k)`, starting from
`sum = r = 1`). -/
def intSeriesGo (x : ℝ) : ℕ → ℝ × ℝ
  | 0 => (1, 1)
  | m + 1 =>
    ((intSeriesGo x m).1 + (intSeriesGo x m).2 * (x / ((m : ℝ) + 1)),
     (intSeriesGo x m).2 * (x / ((m : ℝ) + 1)))

/-- The state `(sum, r)` of the half-integer fast path's loop after the
steps `k = 1..m` (`sum += (r *= x/(k - 0.5))`, starting from `sum = 0`,
`r = 1`). -/
def halfSeriesGo (x : ℝ) : ℕ → ℝ × ℝ
  | 0 => (0, 1)
  | m + 1 =>
    ((halfSeriesGo x m).1 + (halfSeriesGo x m).2 * (x / (((m : ℝ) + 1) - 0.5)),
     (halfSeriesGo x m).2 * (x / (((m : ℝ) + 1) - 0.5)))

/-- The general (continued-fraction) tail of `pgm_gammaq`
(lines 471-494), reached when no fast path fires.  The exponent
`-x + p*log(x) - lgamma(p)` is built over `EReal` so that `log(0) = -∞`
and `exp(-∞) = 0` are preserved (see `clog`, `cexp`, `clampArg`). -/
def gammaqGeneral (p x : ℝ) (normalized : Bool) : ℝ :=
  if p ≥ x then
    if normalized = true then
      1 - confluent_x_smaller p x *
        cexp (-(x : EReal) + (p : EReal) * clog x - ((pgm_lgamma p : ℝ) : EReal))
    else
      (1 - confluent_x_smaller p x *
          Real.exp (clampArg
            (-(x : EReal) + (p : EReal) * clog x - ((pgm_lgamma p : ℝ) : EReal)))) *
        expLgam p
  else
    if normalized = true then
      confluent_p_smaller p x *
        cexp (-(x : EReal) + (p : EReal) * clog x - ((pgm_lgamma p : ℝ) : EReal))
    else
      confluent_p_smaller p x *
        (if (PGM_MAX_EXP : EReal) ≤ -(x : EReal) + (p : EReal) * clog x then
          Real.exp PGM_MAX_EXP
         else cexp (-(x : EReal) + (p : EReal) * clog x))

/-- `pgm_gammaq` (src/pgm_common.h, lines 446-495): the (optionally
normalized) upper incomplete gamma function.  `(size_t)p` is `⌊p⌋₊`.
The half-integer fast path divides by `sqrt(x)`; when `sqrt(x) = 0` the C
code computes `0/0`, a NaN, modelled as `none` (under the documented
preconditions `p > 0`, `x ≥ 0` this is the only NaN the function can
produce). -/
def pgm_gammaq (p x : ℝ) (normalized : Bool) : Option ℝ :=
  if normalized = true ∧ p = (⌊p⌋₊ : ℝ) ∧ p < 30 then
    some (Real.exp (-x) * (intSeriesGo x (⌊p⌋₊ - 1)).1)
  else if normalized = true ∧ p = (⌊p⌋₊ : ℝ) + 0.5 ∧ p < 30 then
    if Real.sqrt x = 0 then none
    else
      some (pgm_erfc (Real.sqrt x) +
        Real.exp (-x) * PGM_1_SQRTPI * (halfSeriesGo x ⌊p⌋₊).1 / Real.sqrt x)
  else some (gammaqGeneral p x normalized)

/-! ### Spec-side statements of the unnormalized clamping (for the claim
about overflow clamping).  `gammaq_unnorm_claimed` renders the claim's
words — the exponent clamped into `[-PGM_MAX_EXP, PGM_MAX_EXP]` in *both*
regimes — and `gammaq_unnorm_amended` the amended wording, where the
`x > p` regime clamps from above only. -/

/-- Two-sided clamp of an extended-real exponent into
`[-PGM_MAX_EXP, PGM_MAX_EXP]`, phrased with `min`/`max` (the spec's
"clamping the exponent argument to ±708.3964202663686"). -/
def clampBoth (y : EReal) : ℝ :=
  (max ((-PGM_MAX_EXP : ℝ) : EReal) (min ((PGM_MAX_EXP : ℝ) : EReal) y)).toReal

/-- The unnormalized result as the claim describes it: both regimes clamp
the exponent to `[-PGM_MAX_EXP, PGM_MAX_EXP]` before `exp`, and the
`x ≤ p` regime additionally clamps `exp(lgamma(p))`. -/
def gammaq_unnorm_claimed (p x : ℝ) : ℝ :=
  if p ≥ x then
    (1 - confluent_x_smaller p x *
        Real.exp (clampBoth
          (-(x : EReal) + (p : EReal) * clog x - ((pgm_lgamma p : ℝ) : EReal)))) *
      expLgam p
  else
    confluent_p_smaller p x *
      Real.exp (clampBoth (-(x : EReal) + (p : EReal) * clog x))

/-- The unnormalized result as amended: in the `x ≤ p` regime the exponent
is clamped to both ends of `[-PGM_MAX_EXP, PGM_MAX_EXP]` and
`exp(lgamma(p))` is clamped; in the `x > p` regime the exponent is clamped
from above only (`min`), with `exp(-∞) = 0` preserved. -/
def gammaq_unnorm_amended (p x : ℝ) : ℝ :=
  if p ≥ x then
    (1 - confluent_x_smaller p x *
        Real.exp (clampBoth
          (-(x : EReal) + (p : EReal) * clog x - ((pgm_lgamma p : ℝ) : EReal)))) *
      expLgam p
  else
    confluent_p_smaller p x *
      cexp (min ((PGM_MAX_EXP : ℝ) : EReal) (-(x : EReal) + (p : EReal) * clog x))

/-! ### The truncated-gamma rejection sampler

The C sampler consumes draws from an opaque `bitgen_t *` through exactly
two primitives, `random_standard_exponential` and
`random_standard_uniform`, each advancing the generator.  The generator is
modelled as two fixed draw streams plus the positions the next draw is
read from; drawing reads the stream at the current position and advances
it.  The two unbounded `do/while` loops receive explicit fuel (the number
of proposals still allowed); `none` means the fuel ran out before a
proposal was accepted. -/

/-- The caller-owned generator state: the stream of standard-exponential
draws, the stream of standard-uniform draws, and the positions of the next
draw of each. -/
structure BitGen where
  exps : ℕ → ℝ
  unis : ℕ → ℝ
  ei : ℕ
  ui : ℕ

/-- The rejection loop of the `a > 1` regime (Dagpunar), lines 291-294:
propose `x = b + Exp/c0`, accept when
`log1p(-U) ≤ amin1*log(x) - x*one_minus_c0 - log_m`. -/
def gammaLoopA (amin1 b c0 omc0 logm : ℝ) : ℕ → BitGen → Option (ℝ × BitGen)
  | 0, _ => none
  | fuel + 1, g =>
    if Real.log (1 - g.unis g.ui) >
        amin1 * Real.log (b + g.exps g.ei / c0) - (b + g.exps g.ei / c0) * omc0 - logm then
      gammaLoopA amin1 b c0 omc0 logm fuel ⟨g.exps, g.unis, g.ei + 1, g.ui + 1⟩
    else
      some (b + g.exps g.ei / c0, ⟨g.exps, g.unis, g.ei + 1, g.ui + 1⟩)

/-- The rejection loop of the `a < 1` regime (Philippe A4), lines 304-306:
propose `x = 1 + Exp/tb`, accept when `log1p(-U) ≤ amin1*log(x)`. -/
def gammaLoopC (amin1 tb : ℝ) : ℕ → BitGen → Option (ℝ × BitGen)
  | 0, _ => none
  | fuel + 1, g =>
    if Real.log (1 - g.unis g.ui) > amin1 * Real.log (1 + g.exps g.ei / tb) then
      gammaLoopC amin1 tb fuel ⟨g.exps, g.unis, g.ei + 1, g.ui + 1⟩
    else
      some (1 + g.exps g.ei / tb, ⟨g.exps, g.unis, g.ei + 1, g.ui + 1⟩)

/-- The proposal-rate constant `c0` of the `a > 1` regime (line 287):
`0.5 * (bmina + sqrt(bmina^2 + 4b)) / b` with `bmina = b - a`, where `b`
is the already-rescaled rate `t*b`. -/
def c0fun (a b : ℝ) : ℝ :=
  0.5 * ((b - a) + Real.sqrt ((b - a) * (b - a) + 4 * b)) / b

/-- The log normalizing constant `log_m` of the `a > 1` regime (line 289):
`amin1 * (log(amin1 / one_minus_c0) - 1)`. -/
def logMfun (a c0 : ℝ) : ℝ := (a - 1) * (Real.log ((a - 1) / (1 - c0)) - 1)

/-- `random_left_bounded_gamma` (src/pgm_common.h, lines 279-309): one
draw from `Gamma(a, rate=b)` truncated to `(t, ∞)`, by regime on `a`.
The accepted proposal is post-processed exactly as the source
(`t * (x/b)` for `a > 1`, `t + Exp/b` for `a == 1`, `t * x` for `a < 1`);
the returned generator has been advanced past every draw consumed. -/
def random_left_bounded_gamma (fuel : ℕ) (g : BitGen) (a b t : ℝ) :
    Option (ℝ × BitGen) :=
  if 1 < a then
    match gammaLoopA (a - 1) (t * b) (c0fun a (t * b)) (1 - c0fun a (t * b))
        (logMfun a (c0fun a (t * b))) fuel g with
    | none => none
    | some xg => some (t * (xg.1 / (t * b)), xg.2)
  else if a = 1 then
    some (t + g.exps g.ei / b, ⟨g.exps, g.unis, g.ei + 1, g.ui⟩)
  else
    match gammaLoopC (a - 1) (t * b) fuel g with
    | none => none
    | some xg => some (t * xg.1, xg.2)

/-- Two runs of the sampler are observationally the same: both fail, or
both accept the same sample with the generators advanced to the same
positions. -/
def sameRun : Option (ℝ × BitGen) → Option (ℝ × BitGen) → Prop
  | none, none => True
  | some xg, some yh => xg.1 = yh.1 ∧ xg.2.ei = yh.2.ei ∧ xg.2.ui = yh.2.ui
  | _, _ => False

/-- A concrete generator whose exponential draws are all `2` and whose
uniform draws are all `1/2`, read from the start of each stream. -/
def genA : BitGen := ⟨fun _ => 2, fun _ => 1 / 2, 0, 0⟩

/-- A concrete generator whose exponential draws are all `0` (a legal
value for a nonnegative standard-exponential variate) and whose uniform
draws are all `1/2`. -/
def genZ : BitGen := ⟨fun _ => 0, fun _ => 1 / 2, 0, 0⟩

/-! ## Theorems -/

/-- `lgammaIdx` unfolded (used to keep the `2⁶⁴` modulus away from stuck
`Nat.floor` terms in later rewrites). -/
theorem lgammaIdx_eq (z : ℝ) :
    lgammaIdx z = (⌊z⌋₊ + (2 ^ 64 - 1)) % 2 ^ 64 := rfl

/-- The wrapped index evaluates to `m - 1` for a floor value `m ∈ [1, 200]`. -/
theorem wrapIdx_eq (m : ℕ) (h1 : 1 ≤ m) (h2 : m ≤ 200) :
    (m + (2 ^ 64 - 1)) % 2 ^ 64 = m - 1 := by omega

/-- `⌊(0 : ℝ)⌋₊ = 0`, specialized. -/
theorem floor_zero_real : ⌊(0 : ℝ)⌋₊ = 0 := Nat.floor_zero

/-- Claim C5: for every integer `n` with `1 ≤ n ≤ 200`, `pgm_lgamma n`
takes the lookup branch and returns exactly the table entry
`logfactorial[n-1]` (the stored value of `log((n-1)!)`); no other branch
is evaluated for such inputs. -/
theorem pgm_lgamma_integer_lookup (n : ℕ) (h1 : 1 ≤ n) (h2 : n ≤ 200) :
    pgm_lgamma (n : ℝ) = logfactorial.getD (n - 1) 0 := by
  have hg : lgammaGuard (n : ℝ) := by
    constructor
    · have : ((n : ℝ)) ≤ 200 := by exact_mod_cast h2
      linarith
    · rw [Nat.floor_natCast]
  have hidx : lgammaIdx (n : ℝ) = n - 1 := by
    rw [lgammaIdx_eq, Nat.floor_natCast]
    exact wrapIdx_eq n h1 h2
  unfold pgm_lgamma
  rw [if_pos hg, hidx]

/-- Witness for C5 at the concrete input `n = 5`. -/
theorem pgm_lgamma_integer_lookup_witness :
    pgm_lgamma ((5 : ℕ) : ℝ) = logfactorial.getD (5 - 1) 0 :=
  pgm_lgamma_integer_lookup 5 (by norm_num) (by norm_num)

/-- Claim C10: under the precondition `z > 0`, whenever the lookup guard
of `pgm_lgamma` holds, `⌊z⌋₊ ∈ [1, 200]` and the wrapped `size_t` index
`(size_t)z - 1` equals `⌊z⌋₊ - 1 ∈ [0, 199]`, inside the 200-entry table;
the guard alone also accepts `z = 0`, whose index wraps to `2⁶⁴ - 1`,
far outside the table — so the `z > 0` precondition is what keeps the
access in bounds. -/
theorem lgamma_lookup_index_in_bounds :
    (∀ z : ℝ, 0 < z → lgammaGuard z →
      1 ≤ ⌊z⌋₊ ∧ ⌊z⌋₊ ≤ 200 ∧ lgammaIdx z = ⌊z⌋₊ - 1 ∧ lgammaIdx z < 200) ∧
    lgammaGuard 0 ∧ ¬ lgammaIdx 0 < 200 := by
  refine ⟨?_, ⟨by norm_num, by simp⟩, ?_⟩
  · intro z hz hg
    obtain ⟨hlt, heq⟩ := hg
    have h1 : 1 ≤ ⌊z⌋₊ := by
      rcases Nat.eq_zero_or_pos ⌊z⌋₊ with h0 | h0
    -- if the floor were 0, `heq` would force z = 0, against 0 < z
      · rw [h0] at heq
        simp at heq
        exact absurd heq (ne_of_gt hz)
      · exact h0
    have h2 : ⌊z⌋₊ ≤ 200 := by
      have hc : ((⌊z⌋₊ : ℕ) : ℝ) < 201 := heq ▸ hlt
      have : ⌊z⌋₊ < 201 := by exact_mod_cast hc
      omega
    have h3 : lgammaIdx z = ⌊z⌋₊ - 1 := by
      rw [lgammaIdx_eq]
      exact wrapIdx_eq ⌊z⌋₊ h1 h2
    refine ⟨h1, h2, h3, ?_⟩
    rw [h3]
    omega
  · have h1 : lgammaIdx 0 = (0 + (2 ^ 64 - 1)) % 2 ^ 64 := by
      rw [lgammaIdx_eq, floor_zero_real]
    have h2 : ¬ (0 + (2 ^ 64 - 1)) % 2 ^ 64 < 200 := by omega
    rw [h1]
    exact h2

/-! ### Iteration-count helpers for the continued fractions -/

/-- The `x_smaller` loop executes at most `fuel` iterations. -/
theorem xsGo_iters_le (r s : ℝ) :
    ∀ (fuel n : ℕ) (b c d f : ℝ), (xsGo r s fuel n b c d f).2 ≤ fuel := by
  intro fuel
  induction fuel with
  | zero => intro n b c d f; simp [xsGo]
  | succ k ih =>
    intro n b c d f
    rw [xsGo]
    split
    · simp
    · simpa using Nat.succ_le_succ (ih (n + 1) (b + 1) _ _ _)

/-- The `p_smaller` loop executes at most `fuel` iterations. -/
theorem psGo_iters_le (p : ℝ) :
    ∀ (fuel n : ℕ) (b c d f : ℝ), (psGo p fuel n b c d f).2 ≤ fuel := by
  intro fuel
  induction fuel with
  | zero => intro n b c d f; simp [psGo]
  | succ k ih =>
    intro n b c d f
    rw [psGo]
    split
    · simp
    · simpa using Nat.succ_le_succ (ih (n + 1) (b + 2) _ _ _)

/-- Claim C6: each continued-fraction evaluation terminates after at most
100 loop iterations (in fact 98 resp. 99, the hard caps `n = 2..99` and
`n = 1..99`); the loop returns immediately with the updated partial value
`f * delta` as soon as `|delta - 1| < 1e-7`; and on running out of
iterations it returns the current partial value `f` as-is — there is no
convergence-failure signal, the result type is a plain number. -/
theorem confluent_iteration_cap :
    (∀ p x : ℝ, xsIters p x ≤ 100 ∧ psIters p x ≤ 100) ∧
    (∀ (r s : ℝ) (fuel n : ℕ) (b c d f : ℝ),
      |xsDelta r s n b c d - 1| < PGM_CONFLUENT_EPSILON →
      xsGo r s (fuel + 1) n b c d f = (f * xsDelta r s n b c d, 1)) ∧
    (∀ (p : ℝ) (fuel n : ℕ) (b c d f : ℝ),
      |psDelta p n b c d - 1| < PGM_CONFLUENT_EPSILON →
      psGo p (fuel + 1) n b c d f = (f * psDelta p n b c d, 1)) ∧
    (∀ (r s p : ℝ) (n : ℕ) (b c d f : ℝ),
      xsGo r s 0 n b c d f = (f, 0) ∧ psGo p 0 n b c d f = (f, 0)) := by
  refine ⟨?_, ?_, ?_, ?_⟩
  · intro p x
    constructor
    · exact le_trans (xsGo_iters_le _ _ 98 2 _ _ _ _) (by norm_num)
    · exact le_trans (psGo_iters_le _ 99 1 _ _ _ _) (by norm_num)
  · intro r s fuel n b c d f h
    rw [xsGo, if_pos h]
  · intro p fuel n b c d f h
    rw [psGo, if_pos h]
  · intro r s p n b c d f
    exact ⟨rfl, rfl⟩

/-! ### Sampler helpers -/

/-- Every accepted run of the `a > 1` rejection loop consumed at least one
exponential and one uniform draw. -/
theorem gammaLoopA_consumes (amin1 b c0 omc0 logm : ℝ) :
    ∀ (fuel : ℕ) (g : BitGen) (x : ℝ) (g' : BitGen),
      gammaLoopA amin1 b c0 omc0 logm fuel g = some (x, g') →
      g.ei + 1 ≤ g'.ei ∧ g.ui + 1 ≤ g'.ui := by
  intro fuel
  induction fuel with
  | zero => intro g x g' h; simp [gammaLoopA] at h
  | succ k ih =>
    intro g x g' h
    rw [gammaLoopA] at h
    split at h
    · obtain ⟨h1, h2⟩ := ih _ _ _ h
      have h1' : g.ei + 1 + 1 ≤ g'.ei := h1
      have h2' : g.ui + 1 + 1 ≤ g'.ui := h2
      omega
    · simp only [Option.some.injEq, Prod.mk.injEq] at h
      obtain ⟨-, hg⟩ := h
      rw [← hg]
      exact ⟨le_refl _, le_refl _⟩

/-- Every accepted run of the `a < 1` rejection loop consumed at least one
exponential and one uniform draw. -/
theorem gammaLoopC_consumes (amin1 tb : ℝ) :
    ∀ (fuel : ℕ) (g : BitGen) (x : ℝ) (g' : BitGen),
      gammaLoopC amin1 tb fuel g = some (x, g') →
      g.ei + 1 ≤ g'.ei ∧ g.ui + 1 ≤ g'.ui := by
  intro fuel
  induction fuel with
  | zero => intro g x g' h; simp [gammaLoopC] at h
  | succ k ih =>
    intro g x g' h
    rw [gammaLoopC] at h
    split at h
    · obtain ⟨h1, h2⟩ := ih _ _ _ h
      have h1' : g.ei + 1 + 1 ≤ g'.ei := h1
      have h2' : g.ui + 1 + 1 ≤ g'.ui := h2
      omega
    · simp only [Option.some.injEq, Prod.mk.injEq] at h
      obtain ⟨-, hg⟩ := h
      rw [← hg]
      exact ⟨le_refl _, le_refl _⟩

/-- The concrete run used below: at `a = b = t = 1` with generator `genA`
the sampler takes the `a == 1` branch and returns `t + Exp/b = 3`,
consuming one exponential draw and no uniform draw. -/
theorem rlbg_one_run :
    random_left_bounded_gamma 1 genA 1 1 1 =
      some (3, ⟨genA.exps, genA.unis, 1, 0⟩) := by
  unfold random_left_bounded_gamma
  rw [if_neg (by norm_num), if_pos rfl]
  norm_num [genA]

/-- Claim C3 (counterexample): it is not true that every returning call
with valid inputs consumes at least one exponential and at least one
uniform draw — the `a == 1` regime returns after one exponential draw and
zero uniform draws. -/
theorem rlbg_consumes_uniform_cex :
    ¬ (∀ (a b t : ℝ) (g : BitGen) (fuel : ℕ) (x : ℝ) (g' : BitGen),
        0 < a → 0 < b → 0 < t →
        random_left_bounded_gamma fuel g a b t = some (x, g') →
        g.ei + 1 ≤ g'.ei ∧ g.ui + 1 ≤ g'.ui) := by
  intro H
  have h := (H 1 1 1 genA 1 3 ⟨genA.exps, genA.unis, 1, 0⟩ (by norm_num) (by norm_num)
      (by norm_num) rlbg_one_run).2
  have h' : (1 : ℕ) ≤ 0 := h
  omega

/-- Claim C3 (amended): whenever `random_left_bounded_gamma` returns, it
consumed at least one exponential draw, and in the looping regimes
`a ≠ 1` also at least one uniform draw (the `a == 1` regime consumes
exactly one exponential and no uniform draw). -/
theorem rlbg_draw_consumption (a b t : ℝ) (g : BitGen) (fuel : ℕ) (x : ℝ)
    (g' : BitGen) (ha : 0 < a) (hb : 0 < b) (ht : 0 < t)
    (h : random_left_bounded_gamma fuel g a b t = some (x, g')) :
    g.ei + 1 ≤ g'.ei ∧ (a ≠ 1 → g.ui + 1 ≤ g'.ui) ∧
      (a = 1 → g'.ei = g.ei + 1 ∧ g'.ui = g.ui) := by
  unfold random_left_bounded_gamma at h
  split_ifs at h with h1 h2
  · rcases hL : gammaLoopA (a - 1) (t * b) (c0fun a (t * b)) (1 - c0fun a (t * b))
        (logMfun a (c0fun a (t * b))) fuel g with - | ⟨y, g2⟩
    · rw [hL] at h; exact absurd h (by simp)
    · rw [hL] at h
      simp only [Option.some.injEq, Prod.mk.injEq] at h
      obtain ⟨-, hg⟩ := h
      obtain ⟨he, hu⟩ := gammaLoopA_consumes _ _ _ _ _ fuel g y g2 hL
      rw [← hg]
      exact ⟨he, fun _ => hu, fun h1' => absurd h1' (by intro he1; rw [he1] at h1; exact lt_irrefl 1 h1)⟩
  · simp only [Option.some.injEq, Prod.mk.injEq] at h
    obtain ⟨-, hg⟩ := h
    rw [← hg]
    exact ⟨le_refl _, fun hne => absurd h2 hne, fun _ => ⟨rfl, rfl⟩⟩
  · rcases hL : gammaLoopC (a - 1) (t * b) fuel g with - | ⟨y, g2⟩
    · rw [hL] at h; exact absurd h (by simp)
    · rw [hL] at h
      simp only [Option.some.injEq, Prod.mk.injEq] at h
      obtain ⟨-, hg⟩ := h
      obtain ⟨he, hu⟩ := gammaLoopC_consumes _ _ fuel g y g2 hL
      rw [← hg]
      exact ⟨he, fun _ => hu, fun h1' => absurd h1' h2⟩

/-- Witness for C3 (amended) at `a = b = t = 1`, fuel `1`, generator
`genA`. -/
theorem rlbg_draw_consumption_witness :
    genA.ei + 1 ≤ (⟨genA.exps, genA.unis, 1, 0⟩ : BitGen).ei ∧
      ((1 : ℝ) ≠ 1 → genA.ui + 1 ≤ (⟨genA.exps, genA.unis, 1, 0⟩ : BitGen).ui) ∧
      ((1 : ℝ) = 1 → (⟨genA.exps, genA.unis, 1, 0⟩ : BitGen).ei = genA.ei + 1 ∧
        (⟨genA.exps, genA.unis, 1, 0⟩ : BitGen).ui = genA.ui) :=
  rlbg_draw_consumption 1 1 1 genA 1 3 ⟨genA.exps, genA.unis, 1, 0⟩
    (by norm_num) (by norm_num) (by norm_num) rlbg_one_run

/-- The proposal rate `c0` of the Dagpunar regime is positive whenever
the rescaled rate `b = t*b₀` is. -/
theorem c0fun_pos (a b : ℝ) (hb : 0 < b) : 0 < c0fun a b := by
  unfold c0fun
  have hnn : 0 ≤ (b - a) * (b - a) + 4 * b := by nlinarith
  have hs : 0 < (b - a) + Real.sqrt ((b - a) * (b - a) + 4 * b) := by
    rcases le_or_lt 0 (b - a) with hba | hba
    · have h4 : 0 < Real.sqrt ((b - a) * (b - a) + 4 * b) :=
        Real.sqrt_pos.mpr (by nlinarith)
      linarith
    · have h2 : (-(b - a)) < Real.sqrt ((b - a) * (b - a) + 4 * b) := by
        rw [show (-(b - a)) = |b - a| from (abs_of_neg hba).symm]
        refine (Real.lt_sqrt (abs_nonneg _)).mpr ?_
        rw [sq_abs]
        nlinarith
      linarith
  exact div_pos (by linarith) hb

/-- In an accepted run of the `a > 1` loop, the accepted proposal
`x = b + Exp/c0` strictly exceeds `b` when every exponential draw of the
stream is positive and `c0 > 0`. -/
theorem gammaLoopA_sample_gt (amin1 b c0 omc0 logm : ℝ) (hc0 : 0 < c0) :
    ∀ (fuel : ℕ) (g : BitGen) (x : ℝ) (g' : BitGen), (∀ i, 0 < g.exps i) →
      gammaLoopA amin1 b c0 omc0 logm fuel g = some (x, g') → b < x := by
  intro fuel
  induction fuel with
  | zero => intro g x g' _ h; simp [gammaLoopA] at h
  | succ k ih =>
    intro g x g' he h
    rw [gammaLoopA] at h
    split at h
    · exact ih ⟨g.exps, g.unis, g.ei + 1, g.ui + 1⟩ x g' (fun i => he i) h
    · simp only [Option.some.injEq, Prod.mk.injEq] at h
      obtain ⟨hx, -⟩ := h
      rw [← hx]
      exact lt_add_of_pos_right b (div_pos (he g.ei) hc0)

/-- In an accepted run of the `a < 1` loop, the accepted proposal
`x = 1 + Exp/tb` strictly exceeds `1` when every exponential draw of the
stream is positive and `tb > 0`. -/
theorem gammaLoopC_sample_gt (amin1 tb : ℝ) (htb : 0 < tb) :
    ∀ (fuel : ℕ) (g : BitGen) (x : ℝ) (g' : BitGen), (∀ i, 0 < g.exps i) →
      gammaLoopC amin1 tb fuel g = some (x, g') → 1 < x := by
  intro fuel
  induction fuel with
  | zero => intro g x g' _ h; simp [gammaLoopC] at h
  | succ k ih =>
    intro g x g' he h
    rw [gammaLoopC] at h
    split at h
    · exact ih ⟨g.exps, g.unis, g.ei + 1, g.ui + 1⟩ x g' (fun i => he i) h
    · simp only [Option.some.injEq, Prod.mk.injEq] at h
      obtain ⟨hx, -⟩ := h
      rw [← hx]
      exact lt_add_of_pos_right 1 (div_pos (he g.ei) htb)

/-- The concrete run used for the C4 counterexample: a zero exponential
draw is accepted by the `a == 1` regime and produces the sample
`t + 0/b = t` exactly. -/
theorem rlbg_zero_run :
    random_left_bounded_gamma 1 genZ 1 1 1 =
      some (1, ⟨genZ.exps, genZ.unis, 1, 0⟩) := by
  unfold random_left_bounded_gamma
  rw [if_neg (by norm_num), if_pos rfl]
  norm_num [genZ]

/-- Claim C4 (counterexample): with draws only assumed nonnegative the
returned sample need not exceed `t`: a zero exponential draw at
`a = b = t = 1` yields the sample `t` itself. -/
theorem rlbg_sample_gt_t_cex :
    ¬ (∀ (a b t : ℝ) (g : BitGen) (fuel : ℕ) (x : ℝ) (g' : BitGen),
        0 < a → 0 < b → 0 < t →
        (∀ i, 0 ≤ g.exps i) → (∀ i, 0 < g.unis i ∧ g.unis i < 1) →
        random_left_bounded_gamma fuel g a b t = some (x, g') → t < x) := by
  intro H
  have h := H 1 1 1 genZ 1 1 ⟨genZ.exps, genZ.unis, 1, 0⟩ (by norm_num) (by norm_num)
    (by norm_num) (fun i => le_refl 0) (fun i => ⟨by norm_num [genZ], by norm_num [genZ]⟩)
    rlbg_zero_run
  exact lt_irrefl 1 h

/-- Claim C4 (amended): for `a, b, t > 0` and draw streams whose
exponential draws are strictly positive and whose uniform draws lie in
`(0,1)`, every returned sample strictly exceeds the truncation point `t`,
in all three regimes. -/
theorem rlbg_sample_gt_t (a b t : ℝ) (g : BitGen) (fuel : ℕ) (x : ℝ)
    (g' : BitGen) (ha : 0 < a) (hb : 0 < b) (ht : 0 < t)
    (he : ∀ i, 0 < g.exps i) (hu : ∀ i, 0 < g.unis i ∧ g.unis i < 1)
    (h : random_left_bounded_gamma fuel g a b t = some (x, g')) : t < x := by
  have htb : 0 < t * b := mul_pos ht hb
  unfold random_left_bounded_gamma at h
  split_ifs at h with h1 h2
  · rcases hL : gammaLoopA (a - 1) (t * b) (c0fun a (t * b)) (1 - c0fun a (t * b))
        (logMfun a (c0fun a (t * b))) fuel g with - | ⟨y, g2⟩
    · rw [hL] at h; exact absurd h (by simp)
    · rw [hL] at h
      simp only [Option.some.injEq, Prod.mk.injEq] at h
      obtain ⟨hx, -⟩ := h
      have hy : t * b < y :=
        gammaLoopA_sample_gt _ _ _ _ _ (c0fun_pos a (t * b) htb) fuel g y g2 he hL
      rw [← hx]
      have hq : 1 < y / (t * b) := (one_lt_div htb).mpr hy
      calc t = t * 1 := (mul_one t).symm
        _ < t * (y / (t * b)) := by
            exact mul_lt_mul_of_pos_left hq ht
  · simp only [Option.some.injEq, Prod.mk.injEq] at h
    obtain ⟨hx, -⟩ := h
    rw [← hx]
    exact lt_add_of_pos_right t (div_pos (he g.ei) hb)
  · rcases hL : gammaLoopC (a - 1) (t * b) fuel g with - | ⟨y, g2⟩
    · rw [hL] at h; exact absurd h (by simp)
    · rw [hL] at h
      simp only [Option.some.injEq, Prod.mk.injEq] at h
      obtain ⟨hx, -⟩ := h
      have hy : 1 < y := gammaLoopC_sample_gt _ _ htb fuel g y g2 he hL
      rw [← hx]
      calc t = t * 1 := (mul_one t).symm
        _ < t * y := by exact mul_lt_mul_of_pos_left hy ht

/-- Witness for C4 (amended) at `a = b = t = 1`, fuel `1`, generator
`genA` (sample `3 > 1`). -/
theorem rlbg_sample_gt_t_witness : (1 : ℝ) < 3 :=
  rlbg_sample_gt_t 1 1 1 genA 1 3 ⟨genA.exps, genA.unis, 1, 0⟩
    (by norm_num) (by norm_num) (by norm_num)
    (fun i => by norm_num [genA]) (fun i => ⟨by norm_num [genA], by norm_num [genA]⟩)
    rlbg_one_run

/-- Two generators that agree on the draws inside the window consumed by
the `a > 1` loop produce observationally identical runs. -/
theorem gammaLoopA_window (amin1 b c0 omc0 logm : ℝ) :
    ∀ (fuel : ℕ) (g h : BitGen), g.ei = h.ei → g.ui = h.ui →
      (∀ i, i < g.ei + fuel → g.exps i = h.exps i) →
      (∀ i, i < g.ui + fuel → g.unis i = h.unis i) →
      sameRun (gammaLoopA amin1 b c0 omc0 logm fuel g)
        (gammaLoopA amin1 b c0 omc0 logm fuel h) := by
  intro fuel
  induction fuel with
  | zero => intro g h _ _ _ _; exact trivial
  | succ k ih =>
    intro g h hei hui hex hun
    have hxv : g.exps g.ei = h.exps h.ei := by
      rw [← hei]; exact hex g.ei (by omega)
    have huv : g.unis g.ui = h.unis h.ui := by
      rw [← hui]; exact hun g.ui (by omega)
    rw [gammaLoopA, gammaLoopA, hxv, huv, hei, hui]
    split
    · exact ih ⟨g.exps, g.unis, h.ei + 1, h.ui + 1⟩ ⟨h.exps, h.unis, h.ei + 1, h.ui + 1⟩
        rfl rfl
        (fun i hi => by
          have hi' : i < h.ei + 1 + k := hi
          exact hex i (by omega))
        (fun i hi => by
          have hi' : i < h.ui + 1 + k := hi
          exact hun i (by omega))
    · exact ⟨rfl, rfl, rfl⟩

/-- Two generators that agree on the draws inside the window consumed by
the `a < 1` loop produce observationally identical runs. -/
theorem gammaLoopC_window (amin1 tb : ℝ) :
    ∀ (fuel : ℕ) (g h : BitGen), g.ei = h.ei → g.ui = h.ui →
      (∀ i, i < g.ei + fuel → g.exps i = h.exps i) →
      (∀ i, i < g.ui + fuel → g.unis i = h.unis i) →
      sameRun (gammaLoopC amin1 tb fuel g) (gammaLoopC amin1 tb fuel h) := by
  intro fuel
  induction fuel with
  | zero => intro g h _ _ _ _; exact trivial
  | succ k ih =>
    intro g h hei hui hex hun
    have hxv : g.exps g.ei = h.exps h.ei := by
      rw [← hei]; exact hex g.ei (by omega)
    have huv : g.unis g.ui = h.unis h.ui := by
      rw [← hui]; exact hun g.ui (by omega)
    rw [gammaLoopC, gammaLoopC, hxv, huv, hei, hui]
    split
    · exact ih ⟨g.exps, g.unis, h.ei + 1, h.ui + 1⟩ ⟨h.exps, h.unis, h.ei + 1, h.ui + 1⟩
        rfl rfl
        (fun i hi => by
          have hi' : i < h.ei + 1 + k := hi
          exact hex i (by omega))
        (fun i hi => by
          have hi' : i < h.ui + 1 + k := hi
          exact hun i (by omega))
    · exact ⟨rfl, rfl, rfl⟩

/-- Claim C9: the kernels are deterministic — two calls of `pgm_erfc`,
`pgm_lgamma` or `pgm_gammaq` at equal arguments return equal results
(they are pure functions of their arguments, mirroring that the C touches
no mutable global state) — and the sampler's outcome is determined by the
generator state alone: two runs whose generators start at the same
positions and agree on every draw either run can reach return the same
sample and leave the generators at the same positions — no hidden state
affects any result. -/
theorem pure_kernel_determinism :
    (∀ x y : ℝ, x = y → pgm_erfc x = pgm_erfc y) ∧
    (∀ z w : ℝ, z = w → pgm_lgamma z = pgm_lgamma w) ∧
    (∀ p q x y : ℝ, ∀ n m : Bool, p = q → x = y → n = m →
      pgm_gammaq p x n = pgm_gammaq q y m) ∧
    (∀ (g h : BitGen) (fuel : ℕ) (a b t : ℝ), g.ei = h.ei → g.ui = h.ui →
      (∀ i, i < g.ei + fuel + 1 → g.exps i = h.exps i) →
      (∀ i, i < g.ui + fuel + 1 → g.unis i = h.unis i) →
      sameRun (random_left_bounded_gamma fuel g a b t)
        (random_left_bounded_gamma fuel h a b t)) := by
  refine ⟨fun x y h => by rw [h], fun z w h => by rw [h],
    fun p q x y n m h1 h2 h3 => by rw [h1, h2, h3], ?_⟩
  intro g h fuel a b t hei hui hex hun
  unfold random_left_bounded_gamma
  split_ifs with h1 h2
  · have hw := gammaLoopA_window (a - 1) (t * b) (c0fun a (t * b)) (1 - c0fun a (t * b))
      (logMfun a (c0fun a (t * b))) fuel g h hei hui
      (fun i hi => hex i (by omega)) (fun i hi => hun i (by omega))
    rcases hA : gammaLoopA (a - 1) (t * b) (c0fun a (t * b)) (1 - c0fun a (t * b))
        (logMfun a (c0fun a (t * b))) fuel g with - | ⟨y, g2⟩ <;>
      rcases hB : gammaLoopA (a - 1) (t * b) (c0fun a (t * b)) (1 - c0fun a (t * b))
        (logMfun a (c0fun a (t * b))) fuel h with - | ⟨z, h2'⟩ <;>
      rw [hA, hB] at hw
    · exact trivial
    · exact hw.elim
    · exact hw.elim
    · obtain ⟨hv, he2, hu2⟩ := hw
      exact ⟨by rw [hv], he2, hu2⟩
  · have hxv : g.exps g.ei = h.exps h.ei := by
      rw [← hei]; exact hex g.ei (by omega)
    rw [hxv, hei, hui]
    exact ⟨rfl, rfl, rfl⟩
  · have hw := gammaLoopC_window (a - 1) (t * b) fuel g h hei hui
      (fun i hi => hex i (by omega)) (fun i hi => hun i (by omega))
    rcases hA : gammaLoopC (a - 1) (t * b) fuel g with - | ⟨y, g2⟩ <;>
      rcases hB : gammaLoopC (a - 1) (t * b) fuel h with - | ⟨z, h2'⟩ <;>
      rw [hA, hB] at hw
    · exact trivial
    · exact hw.elim
    · exact hw.elim
    · obtain ⟨hv, he2, hu2⟩ := hw
      exact ⟨by rw [hv], he2, hu2⟩

/-- Witness for C9 at `a = b = t = 1`, fuel `1`, both runs from `genA`. -/
theorem rlbg_deterministic_witness :
    sameRun (random_left_bounded_gamma 1 genA 1 1 1)
      (random_left_bounded_gamma 1 genA 1 1 1) :=
  pure_kernel_determinism.2.2.2 genA genA 1 1 1 1 rfl rfl
    (fun _ _ => rfl) (fun _ _ => rfl)

/-! ### The unnormalized clamping (claim about `pgm_gammaq`'s overflow
guards) -/

/-- `cexp` at a finite extended real is `Real.exp`. -/
theorem cexp_coe (r : ℝ) : cexp ((r : ℝ) : EReal) = Real.exp r := by
  unfold cexp
  rw [if_neg (EReal.coe_ne_bot r), if_neg (EReal.coe_ne_top r), EReal.toReal_coe]

/-- The source's pair of clamping `if`s agrees with the two-sided
`min`/`max` clamp. -/
theorem clampArg_eq_clampBoth (y : EReal) : clampArg y = clampBoth y := by
  unfold clampArg clampBoth
  have hlt : ((-PGM_MAX_EXP : ℝ) : EReal) ≤ ((PGM_MAX_EXP : ℝ) : EReal) := by
    rw [EReal.coe_le_coe_iff]
    unfold PGM_MAX_EXP
    norm_num
  split_ifs with h1 h2
  · rw [min_eq_left h1, max_eq_right hlt, EReal.toReal_coe]
  · rw [min_eq_right (le_trans h2 hlt), max_eq_left h2, EReal.toReal_coe]
  · rw [min_eq_right (le_of_not_le h1), max_eq_right (le_of_not_le h2)]

/-- The source's one-sided (upper) clamp in the `x > p` regime is the
`min` clamp. -/
theorem ite_exp_eq_cexp_min (y : EReal) :
    (if ((PGM_MAX_EXP : ℝ) : EReal) ≤ y then Real.exp PGM_MAX_EXP else cexp y) =
      cexp (min ((PGM_MAX_EXP : ℝ) : EReal) y) := by
  split_ifs with h
  · rw [min_eq_left h, cexp_coe]
  · rw [min_eq_right (le_of_not_le h)]

/-- Claim C2 (amended): for every `(p, x)`, the unnormalized result of
`pgm_gammaq` equals the spec-side form in which the `x ≤ p` regime clamps
the exponent to both ends of `[-PGM_MAX_EXP, PGM_MAX_EXP]` and clamps
`exp(lgamma(p))`, while the `x > p` regime clamps the exponent from above
only. -/
theorem gammaq_unnorm_clamping (p x : ℝ) :
    pgm_gammaq p x false = some (gammaq_unnorm_amended p x) := by
  unfold pgm_gammaq
  rw [if_neg (by simp), if_neg (by simp)]
  unfold gammaqGeneral gammaq_unnorm_amended
  simp only [show (false = true) = False by simp, if_false]
  by_cases h1 : p ≥ x
  · rw [if_pos h1, if_pos h1, clampArg_eq_clampBoth]
  · rw [if_neg h1, if_neg h1, ite_exp_eq_cexp_min]

/-- `log 1500 ≤ 76` (via `log y ≤ 2*(√y - 1)`). -/
theorem log_1500_le : Real.log 1500 ≤ 76 := by
  have h1 : Real.sqrt 1500 ≤ 39 := by
    nlinarith [Real.sq_sqrt (show (0:ℝ) ≤ 1500 by norm_num), Real.sqrt_nonneg 1500,
      sq_nonneg (Real.sqrt 1500 - 39)]
  have h2 : Real.log (Real.sqrt 1500) ≤ Real.sqrt 1500 - 1 :=
    Real.log_le_sub_one_of_pos (Real.sqrt_pos.mpr (by norm_num))
  have h3 : Real.log (Real.sqrt 1500) = Real.log 1500 / 2 :=
    Real.log_sqrt (by norm_num)
  linarith

/-- At `p = 1`, `x = 1500` the `p_smaller` continued fraction converges at
its first iteration (`a₂ = 1*(p-1) = 0` makes `delta = 1` exactly), so its
value is the initial `f = 1/(x - p + 1) = 1/1500`. -/
theorem cps_one : confluent_p_smaller 1 1500 = 1 / 1500 := by
  have hb : (1500 : ℝ) - 1 + 1 = 1500 := by norm_num
  have hδ : psDelta 1 1 1500 (1 / DBL_MIN) (1 / 1500) = 1 := by
    unfold psDelta psA lentzC lentzD DBL_MIN
    norm_num
  unfold confluent_p_smaller
  rw [hb, show (99 : ℕ) = 98 + 1 from rfl, psGo, hδ]
  rw [if_pos (by unfold PGM_CONFLUENT_EPSILON; norm_num)]
  norm_num

/-- What the code computes at `p = 1`, `x = 1500`, unnormalized: the
exponent `-x + p*log x = -1500 + log 1500` is below `-PGM_MAX_EXP` but is
passed to `exp` unclamped. -/
theorem gq_code_val :
    pgm_gammaq 1 1500 false =
      some (1 / 1500 * Real.exp (-1500 + Real.log 1500)) := by
  have hclog : clog (1500 : ℝ) = ((Real.log 1500 : ℝ) : EReal) := by
    unfold clog
    rw [if_neg (by norm_num : (1500 : ℝ) ≠ 0)]
  have harg : -((1500 : ℝ) : EReal) + ((1 : ℝ) : EReal) * clog 1500 =
      ((-1500 + Real.log 1500 : ℝ) : EReal) := by
    rw [hclog, ← EReal.coe_mul, ← EReal.coe_neg, ← EReal.coe_add, one_mul]
  unfold pgm_gammaq
  rw [if_neg (by simp), if_neg (by simp)]
  unfold gammaqGeneral
  rw [if_neg (by norm_num : ¬ (1 : ℝ) ≥ 1500)]
  simp only [show (false = true) = False by simp, if_false]
  rw [harg, cps_one]
  rw [if_neg ?hcond, cexp_coe]
  case hcond =>
    rw [EReal.coe_le_coe_iff]
    have := log_1500_le
    unfold PGM_MAX_EXP
    linarith

/-- What the claim's two-sided clamp would compute at `p = 1`, `x = 1500`:
the exponent is clamped up to `-PGM_MAX_EXP`. -/
theorem gq_claimed_val :
    gammaq_unnorm_claimed 1 1500 = 1 / 1500 * Real.exp (-PGM_MAX_EXP) := by
  have hclog : clog (1500 : ℝ) = ((Real.log 1500 : ℝ) : EReal) := by
    unfold clog
    rw [if_neg (by norm_num : (1500 : ℝ) ≠ 0)]
  have harg : -((1500 : ℝ) : EReal) + ((1 : ℝ) : EReal) * clog 1500 =
      ((-1500 + Real.log 1500 : ℝ) : EReal) := by
    rw [hclog, ← EReal.coe_mul, ← EReal.coe_neg, ← EReal.coe_add, one_mul]
  have hle : (-1500 + Real.log 1500 : ℝ) ≤ -PGM_MAX_EXP := by
    have := log_1500_le
    unfold PGM_MAX_EXP
    linarith
  unfold gammaq_unnorm_claimed
  rw [if_neg (by norm_num : ¬ (1 : ℝ) ≥ 1500), harg, cps_one]
  unfold clampBoth
  rw [min_eq_right (EReal.coe_le_coe_iff.mpr (by
        have := log_1500_le
        unfold PGM_MAX_EXP
        linarith)),
    max_eq_left (EReal.coe_le_coe_iff.mpr hle), EReal.toReal_coe]

/-- Claim C2 (counterexample): at `p = 1`, `x = 1500` (unnormalized,
`x > p` regime) the code's result differs from the claimed fully-clamped
result: the code evaluates `exp(-1500 + log 1500)` while the claim would
evaluate `exp(-708.3964202663686)`. -/
theorem gammaq_unnorm_clamping_cex :
    pgm_gammaq 1 1500 false ≠ some (gammaq_unnorm_claimed 1 1500) := by
  rw [gq_code_val, gq_claimed_val]
  intro h
  rw [Option.some.injEq] at h
  have h2 := mul_left_cancel₀ (show (1 / 1500 : ℝ) ≠ 0 by norm_num) h
  have h3 := Real.exp_eq_exp.mp h2
  have h4 := log_1500_le
  unfold PGM_MAX_EXP at h3
  linarith

/-- Claim C1 (evaluation at the failing input): at `p = 1/2`, `x = 0`,
`normalized = true` the function takes the half-integer fast path, whose
divisor `sqrt(0)` is `0` while the numerator's series sum is `0` as well —
in IEEE arithmetic `0/0`, a NaN (`none` in this model) — instead of the
claimed value `1`. -/
theorem gammaq_half_integer_at_zero_nan : pgm_gammaq (1 / 2) 0 true = none := by
  have hfl : ⌊(1 / 2 : ℝ)⌋₊ = 0 := Nat.floor_eq_zero.mpr (by norm_num)
  have h1 : ¬ (true = true ∧ (1 / 2 : ℝ) = (⌊(1 / 2 : ℝ)⌋₊ : ℝ) ∧ (1 / 2 : ℝ) < 30) := by
    rw [hfl]
    rintro ⟨-, h, -⟩
    norm_num at h
  have h2 : true = true ∧ (1 / 2 : ℝ) = (⌊(1 / 2 : ℝ)⌋₊ : ℝ) + 0.5 ∧ (1 / 2 : ℝ) < 30 := by
    rw [hfl]
    norm_num
  unfold pgm_gammaq
  rw [if_neg h1, if_pos h2, if_pos Real.sqrt_zero]

/-! ### The erfc reflection identity -/

/-- Bounds for the correction term `z1 * R(z1)` of the asymptotic erfc
branch, for `z1 = 1/x² ∈ (0, 1/36]`. -/
theorem tail_correction_bounds (z1 : ℝ) (h0 : 0 < z1) (h36 : z1 ≤ 1 / 36) :
    -0.01 ≤ z1 * (((-5.16882262185e-02) * z1 + (-1.96068973726e-01)) * z1 +
        (-4.25799643553e-02)) /
      ((z1 + 9.21452411694e-01) * z1 + 1.50942070545e-01) ∧
    z1 * (((-5.16882262185e-02) * z1 + (-1.96068973726e-01)) * z1 +
        (-4.25799643553e-02)) /
      ((z1 + 9.21452411694e-01) * z1 + 1.50942070545e-01) ≤ 0 := by
  have hz2 : z1 * z1 ≤ z1 * (1 / 36) := mul_le_mul_of_nonneg_left h36 h0.le
  have hN1 : (((-5.16882262185e-02) * z1 + (-1.96068973726e-01)) * z1 +
      (-4.25799643553e-02)) ≤ 0 := by nlinarith
  have hN2 : -0.049 ≤ (((-5.16882262185e-02) * z1 + (-1.96068973726e-01)) * z1 +
      (-4.25799643553e-02)) := by nlinarith
  have hD1 : (0.150942070545 : ℝ) ≤ (z1 + 9.21452411694e-01) * z1 + 1.50942070545e-01 := by
    nlinarith
  have hDpos : (0 : ℝ) < (z1 + 9.21452411694e-01) * z1 + 1.50942070545e-01 := by linarith
  constructor
  · have hnum : -(z1 * (((-5.16882262185e-02) * z1 + (-1.96068973726e-01)) * z1 +
        (-4.25799643553e-02))) ≤ 0.0014 := by nlinarith
    have hdd := div_le_div₀ (by norm_num : (0 : ℝ) ≤ 0.0014) hnum
      (by norm_num : (0 : ℝ) < 0.150942070545) hD1
    rw [neg_div] at hdd
    have : (0.0014 : ℝ) / 0.150942070545 ≤ 0.01 := by norm_num
    linarith
  · apply div_nonpos_iff.mpr
    exact Or.inr ⟨by nlinarith, hDpos.le⟩

/-- `exp(-36) ≤ 1e-15`. -/
theorem exp_neg36_le : Real.exp (-36) ≤ 1e-15 := by
  have he1 : (2.7 : ℝ) ≤ Real.exp 1 := by linarith [Real.exp_one_gt_d9]
  have he36 : ((2.7 : ℝ)) ^ (36 : ℕ) ≤ Real.exp 36 := by
    calc ((2.7 : ℝ)) ^ (36 : ℕ) ≤ (Real.exp 1) ^ (36 : ℕ) :=
          pow_le_pow_left₀ (by norm_num) he1 36
      _ = Real.exp 36 := by rw [← Real.exp_nat_mul]; norm_num
  have hbig : (1e15 : ℝ) ≤ ((2.7 : ℝ)) ^ (36 : ℕ) := by norm_num
  rw [Real.exp_neg]
  calc (Real.exp 36)⁻¹ ≤ ((1e15 : ℝ))⁻¹ := by
        apply inv_anti₀ (by norm_num)
        linarith
    _ = 1e-15 := by norm_num

/-- In the deep tail `x ≥ 6` the value of `erfcPos` is nonnegative and
below `2e-9`. -/
theorem erfcPos_tail (w : ℝ) (hw : 6 ≤ w) :
    0 ≤ erfcPos w ∧ erfcPos w ≤ 2e-9 := by
  have hw0 : (0 : ℝ) < w := by linarith
  have h1 : ¬ w < DBL_EPSILON := by
    push_neg
    unfold DBL_EPSILON
    norm_num
    linarith
  have h2 : ¬ w < 0.5 := by push_neg; linarith
  have h3 : ¬ w < 4 := by push_neg; linarith
  unfold erfcPos
  rw [if_neg h1, if_neg h2, if_neg h3]
  by_cases hbig : w < PGM_BIG_VAL
  · rw [if_pos hbig]
    simp only []
    by_cases hg : w * DBL_MIN > Real.exp (-(w * w)) * PGM_1_SQRTPI
    · rw [if_pos hg]
      norm_num
    · rw [if_neg hg]
      have hww : (36 : ℝ) ≤ w * w := by nlinarith
      have hz1pos : 0 < 1 / (w * w) := by positivity
      have hz1le : 1 / (w * w) ≤ 1 / 36 :=
        one_div_le_one_div_of_le (by norm_num) hww
      obtain ⟨hcl, hcu⟩ := tail_correction_bounds (1 / (w * w)) hz1pos hz1le
      have hC1 : (0.55 : ℝ) ≤ PGM_1_SQRTPI + 1 / (w * w) *
          (((-5.16882262185e-02) * (1 / (w * w)) + (-1.96068973726e-01)) * (1 / (w * w)) +
            (-4.25799643553e-02)) /
          ((1 / (w * w) + 9.21452411694e-01) * (1 / (w * w)) + 1.50942070545e-01) := by
        unfold PGM_1_SQRTPI
        linarith
      have hC2 : PGM_1_SQRTPI + 1 / (w * w) *
          (((-5.16882262185e-02) * (1 / (w * w)) + (-1.96068973726e-01)) * (1 / (w * w)) +
            (-4.25799643553e-02)) /
          ((1 / (w * w) + 9.21452411694e-01) * (1 / (w * w)) + 1.50942070545e-01) ≤ 0.5642 := by
        unfold PGM_1_SQRTPI
        linarith
      have hexple : Real.exp (-(w * w)) ≤ Real.exp (-36) :=
        Real.exp_le_exp.mpr (by linarith)
      constructor
      · apply div_nonneg _ hw0.le
        exact mul_nonneg (Real.exp_nonneg _) (by linarith)
      · have hnum : Real.exp (-(w * w)) * (PGM_1_SQRTPI + 1 / (w * w) *
            (((-5.16882262185e-02) * (1 / (w * w)) + (-1.96068973726e-01)) * (1 / (w * w)) +
              (-4.25799643553e-02)) /
            ((1 / (w * w) + 9.21452411694e-01) * (1 / (w * w)) + 1.50942070545e-01)) ≤
            Real.exp (-36) * 0.5642 :=
          mul_le_mul hexple hC2 (by linarith) (Real.exp_nonneg _)
        have hdd := div_le_div₀ (by positivity) hnum (by norm_num : (0 : ℝ) < 6) hw
        have hfin : Real.exp (-36) * 0.5642 / 6 ≤ 2e-9 := by
          have := exp_neg36_le
          have h0e := Real.exp_nonneg (-36 : ℝ)
          nlinarith
        linarith
  · rw [if_neg hbig]
    norm_num

/-- Bounds for the numerator polynomial of the `0 < x < 0.5` erfc branch
on `[0, 1]`. -/
theorem erfcP1_bounds (z : ℝ) (h0 : 0 ≤ z) (h1 : z ≤ 1) :
    0 ≤ ((((1.85777706184603153e-01 * z + 3.16112374387056560e+00) * z +
        1.13864154151050156e+02) * z + 3.77485237685302021e+02) * z +
        3.20937758913846947e+03) ∧
    ((((1.85777706184603153e-01 * z + 3.16112374387056560e+00) * z +
        1.13864154151050156e+02) * z + 3.77485237685302021e+02) * z +
        3.20937758913846947e+03) ≤ 3705 := by
  have hz2 : 0 ≤ z * z := mul_nonneg h0 h0
  have hz3 : 0 ≤ z * z * z := mul_nonneg hz2 h0
  have hz4 : 0 ≤ z * z * z * z := mul_nonneg hz3 h0
  have hu2 : z * z ≤ 1 := by nlinarith
  have hu3 : z * z * z ≤ 1 := by nlinarith
  have hu4 : z * z * z * z ≤ 1 := by nlinarith
  constructor <;> nlinarith

/-- Lower bound for the denominator polynomial of the `0 < x < 0.5` erfc
branch on `[0, ∞)`. -/
theorem erfcQ1_bound (z : ℝ) (h0 : 0 ≤ z) :
    (2844 : ℝ) ≤ (((z + 2.36012909523441209e+01) * z + 2.44024637934444173e+02) * z +
        1.28261652607737228e+03) * z + 2.84423683343917062e+03 := by
  have hz2 : 0 ≤ z * z := mul_nonneg h0 h0
  have hz3 : 0 ≤ z * z * z := mul_nonneg hz2 h0
  have hz4 : 0 ≤ z * z * z * z := mul_nonneg hz3 h0
  nlinarith

/-- Bounds for the whole rational term `x * P(x²)/Q(x²)` of the
`0 < x < 0.5` erfc branch, for `x ∈ [0, 1]`. -/
theorem small_branch_ratio_bounds (x : ℝ) (h0 : 0 ≤ x) (h1 : x ≤ 1) :
    0 ≤ x * ((((1.85777706184603153e-01 * (x * x) + 3.16112374387056560e+00) * (x * x) +
        1.13864154151050156e+02) * (x * x) + 3.77485237685302021e+02) * (x * x) +
        3.20937758913846947e+03) /
      ((((x * x + 2.36012909523441209e+01) * (x * x) + 2.44024637934444173e+02) * (x * x) +
        1.28261652607737228e+03) * (x * x) + 2.84423683343917062e+03) ∧
    x * ((((1.85777706184603153e-01 * (x * x) + 3.16112374387056560e+00) * (x * x) +
        1.13864154151050156e+02) * (x * x) + 3.77485237685302021e+02) * (x * x) +
        3.20937758913846947e+03) /
      ((((x * x + 2.36012909523441209e+01) * (x * x) + 2.44024637934444173e+02) * (x * x) +
        1.28261652607737228e+03) * (x * x) + 2.84423683343917062e+03) ≤ 1.4 * x := by
  have hz0 : 0 ≤ x * x := mul_nonneg h0 h0
  have hz1 : x * x ≤ 1 := by nlinarith
  obtain ⟨hP0, hP1⟩ := erfcP1_bounds (x * x) hz0 hz1
  have hQ1 := erfcQ1_bound (x * x) hz0
  have hQpos : (0 : ℝ) < ((((x * x + 2.36012909523441209e+01) * (x * x) +
      2.44024637934444173e+02) * (x * x) +
      1.28261652607737228e+03) * (x * x) + 2.84423683343917062e+03) := by linarith
  constructor
  · exact div_nonneg (mul_nonneg h0 hP0) hQpos.le
  · have hnum : x * ((((1.85777706184603153e-01 * (x * x) + 3.16112374387056560e+00) * (x * x) +
        1.13864154151050156e+02) * (x * x) + 3.77485237685302021e+02) * (x * x) +
        3.20937758913846947e+03) ≤ x * 3705 := mul_le_mul_of_nonneg_left hP1 h0
    have hdd := div_le_div₀ (by nlinarith : (0 : ℝ) ≤ x * 3705) hnum
      (by norm_num : (0 : ℝ) < 2844) hQ1
    have hfin : x * 3705 / 2844 ≤ 1.4 * x := by nlinarith
    linarith

/-- The reflection-sum bound for `x ≥ 0`: every branch combination keeps
`pgm_erfc x + pgm_erfc (-x)` within `2e-9` of `2`. -/
theorem erfc_sum_bound_nonneg (x : ℝ) (hx : 0 ≤ x) :
    |pgm_erfc x + pgm_erfc (-x) - 2| ≤ 1e-9 * 2 := by
  have hepspos : (0 : ℝ) < DBL_EPSILON := by unfold DBL_EPSILON; norm_num
  have hepslt : DBL_EPSILON < 0.5 := by unfold DBL_EPSILON; norm_num
  have hsmallneg : PGM_SMALL_VAL < -DBL_EPSILON := by
    unfold PGM_SMALL_VAL DBL_EPSILON; norm_num
  have hx1 : pgm_erfc x = erfcPos x := by
    unfold pgm_erfc
    rw [if_neg (by linarith), if_neg (by push_neg; linarith)]
  rcases lt_trichotomy x DBL_EPSILON with h1 | h1 | h1
  · have hx2 : pgm_erfc (-x) = erfcPos (-x) := by
      unfold pgm_erfc
      rw [if_neg (by push_neg; linarith), if_neg (by push_neg; linarith)]
    have e1 : erfcPos x = 1 := by unfold erfcPos; rw [if_pos h1]
    have e2 : erfcPos (-x) = 1 := by unfold erfcPos; rw [if_pos (by linarith)]
    rw [hx1, hx2, e1, e2]
    norm_num
  · -- x = DBL_EPSILON exactly: one side evaluates the rational branch
    have hx2 : pgm_erfc (-x) = erfcPos (-x) := by
      unfold pgm_erfc
      rw [if_neg (by push_neg; linarith), if_neg (by push_neg; linarith)]
    have e2 : erfcPos (-x) = 1 := by unfold erfcPos; rw [if_pos (by linarith)]
    rw [hx1, hx2, e2]
    unfold erfcPos
    rw [if_neg (by push_neg; linarith), if_pos (by linarith)]
    simp only []
    obtain ⟨hrl, hru⟩ := small_branch_ratio_bounds x hx (by linarith)
    have heq : 1 - x * ((((1.85777706184603153e-01 * (x * x) + 3.16112374387056560e+00) * (x * x) +
          1.13864154151050156e+02) * (x * x) + 3.77485237685302021e+02) * (x * x) +
          3.20937758913846947e+03) /
        ((((x * x + 2.36012909523441209e+01) * (x * x) + 2.44024637934444173e+02) * (x * x) +
          1.28261652607737228e+03) * (x * x) + 2.84423683343917062e+03) + 1 - 2 =
        -(x * ((((1.85777706184603153e-01 * (x * x) + 3.16112374387056560e+00) * (x * x) +
          1.13864154151050156e+02) * (x * x) + 3.77485237685302021e+02) * (x * x) +
          3.20937758913846947e+03) /
        ((((x * x + 2.36012909523441209e+01) * (x * x) + 2.44024637934444173e+02) * (x * x) +
          1.28261652607737228e+03) * (x * x) + 2.84423683343917062e+03)) := by ring
    rw [heq, abs_neg, abs_of_nonneg hrl]
    have hxval : x ≤ 1 / 2 ^ 52 := by rw [h1]; unfold DBL_EPSILON; norm_num
    have : (1.4 : ℝ) * x ≤ 1.4 * (1 / 2 ^ 52) := by linarith
    have hend : (1.4 : ℝ) * (1 / 2 ^ 52) ≤ 1e-9 * 2 := by norm_num
    linarith
  · rcases le_or_lt x (-PGM_SMALL_VAL) with h2 | h2
    · have hx2 : pgm_erfc (-x) = 2 - erfcPos x := by
        unfold pgm_erfc
        rw [if_neg (by push_neg; linarith), if_pos (by linarith), neg_neg]
      rw [hx1, hx2]
      have : erfcPos x + (2 - erfcPos x) - 2 = 0 := by ring
      rw [this]
      norm_num
    · have hx2 : pgm_erfc (-x) = 2 := by
        unfold pgm_erfc
        rw [if_pos (by linarith)]
      have hw : 6 ≤ x := by
        unfold PGM_SMALL_VAL at h2
        linarith
      obtain ⟨hl, hu⟩ := erfcPos_tail x hw
      rw [hx1, hx2]
      have heq : erfcPos x + 2 - 2 = erfcPos x := by ring
      rw [heq, abs_of_nonneg hl]
      linarith

/-- Claim C7: for every finite `x` the reflection identity
`pgm_erfc x + pgm_erfc (-x) = 2` holds within `1e-9` relative tolerance
(`|sum - 2| ≤ 1e-9 * 2`), and for `-6.003636680306125 ≤ x < -DBL_EPSILON`
the result is computed exactly as `2 - pgm_erfc (-x)`. -/
theorem erfc_reflection_identity (x : ℝ) :
    |pgm_erfc x + pgm_erfc (-x) - 2| ≤ 1e-9 * 2 ∧
    (PGM_SMALL_VAL ≤ x → x < -DBL_EPSILON → pgm_erfc x = 2 - pgm_erfc (-x)) := by
  constructor
  · rcases le_total 0 x with hx | hx
    · exact erfc_sum_bound_nonneg x hx
    · have h := erfc_sum_bound_nonneg (-x) (by linarith)
      rw [neg_neg] at h
      rw [add_comm (pgm_erfc x)]
      exact h
  · intro hs he
    have hepspos : (0 : ℝ) < DBL_EPSILON := by unfold DBL_EPSILON; norm_num
    have hxneg : x < 0 := by linarith
    unfold pgm_erfc
    rw [if_neg (by push_neg; exact hs), if_pos he,
      if_neg (by push_neg; linarith), if_neg (by push_neg; linarith)]

end PGM

end
